import Mathlib

/-!
Verification development for `make_transparent_blocks.py`, the single source
file of the MinecraftXRAY repository.

The script is a linear pipeline over the file system:
  * `make_transparent_blocks` reads `*.png` entries of a source directory and
    writes, for each, either a copy (names whose stem contains "diamond") or a
    constant blank 16x16 RGBA image into the target directory;
  * `write_manifest` writes `manifest.json` (with two freshly drawn UUIDs);
  * `write_default_icon` writes a blank 256x256 `pack_icon.png` unless one
    already exists;
  * `build_mcpack` zips the pack folder into a `.mcpack` archive.

We embed the file system shallowly: an `FS` is a finite map from paths
(lists of name components) to file contents, together with the set of
existing directories.  Each Python function becomes an `FS` transformer;
a `raise` becomes an error result carrying the state at the raise point;
`uuid.uuid4()` values are passed in as parameters; Pillow images are kept
structurally (mode, size, pixel grid) rather than as encoded bytes.
-/

set_option maxHeartbeats 1000000

/-- RGBA pixel, the 4-tuple colour Pillow uses for mode "RGBA". -/
structure RGBA where
  r : Nat
  g : Nat
  b : Nat
  a : Nat
deriving DecidableEq, Repr

/-- A Pillow image: mode string, size, and the full pixel grid
(`pixels` is a list of `height` rows of `width` pixels). -/
structure Img where
  mode : String
  width : Nat
  height : Nat
  pixels : List (List RGBA)
deriving DecidableEq, Repr

/-- `Image.new(mode, (width, height), color)`: a constant image. -/
def imageNew (mode : String) (width height : Nat) (color : RGBA) : Img :=
  { mode := mode, width := width, height := height,
    pixels := List.replicate height (List.replicate width color) }

/-- JSON values, enough for the manifest written by `write_manifest`. -/
inductive Json where
  | num : Int → Json
  | str : String → Json
  | arr : List Json → Json
  | obj : List (String × Json) → Json

/-- A path in the modelled file system: its list of name components. -/
abbrev FPath := List String

/-- Contents of a file in the model: opaque bytes, a saved Pillow image,
a JSON document, or a zip archive (relative path / content pairs). -/
inductive FileContent where
  | raw : List Nat → FileContent
  | png : Img → FileContent
  | jsonFile : Json → FileContent
  | zipArchive : List (FPath × FileContent) → FileContent

/-- The modelled file system: the regular files (an association list from
path to content; earlier entries shadow later ones) and the directories. -/
structure FS where
  files : List (FPath × FileContent)
  dirs : List FPath

/-- Content of the file at `p`, if any. -/
def lookupFile (fs : FS) (p : FPath) : Option FileContent :=
  (fs.files.find? (fun e => decide (e.1 = p))).map (fun e => e.2)

/-- Write (create or overwrite) the file at `p`. -/
def FS.setFile (fs : FS) (p : FPath) (c : FileContent) : FS :=
  { fs with files := (p, c) :: fs.files.filter (fun e => decide (e.1 ≠ p)) }

/-- `Path.unlink()`: remove the file at `p`. -/
def FS.removeFile (fs : FS) (p : FPath) : FS :=
  { fs with files := fs.files.filter (fun e => decide (e.1 ≠ p)) }

/-- `Path.rename`: move the file at `a` to `b`. -/
def FS.renameFile (fs : FS) (a b : FPath) : FS :=
  match lookupFile fs a with
  | some c => (fs.removeFile a).setFile b c
  | none => fs

/-- `Path.is_dir()`. -/
def FS.isDir (fs : FS) (p : FPath) : Bool :=
  decide (p ∈ fs.dirs)

/-- `Path.exists()`: a file or a directory lives at `p`. -/
def FS.pathExists (fs : FS) (p : FPath) : Bool :=
  (lookupFile fs p).isSome || decide (p ∈ fs.dirs)

/-- All initial segments of a path, the directories that
`mkdir(parents=True)` guarantees to exist. -/
def allPrefixes (p : FPath) : List FPath :=
  (List.range (p.length + 1)).map (fun i => p.take i)

/-- `Path.mkdir(parents=True, exist_ok=True)`. -/
def FS.mkdirParents (fs : FS) (p : FPath) : FS :=
  { fs with dirs := allPrefixes p ++ fs.dirs }

/-- `dir` is an initial segment of `p` (possibly all of `p`). -/
def pathBelow (dir p : FPath) : Prop :=
  p.take dir.length = dir

instance (dir p : FPath) : Decidable (pathBelow dir p) := by
  unfold pathBelow; infer_instance

/-- Files lying strictly below `root`, keyed by their relative paths: the
entries `shutil.make_archive` puts into the zip of `root`. -/
def FS.filesUnder (fs : FS) (root : FPath) : List (FPath × FileContent) :=
  fs.files.filterMap (fun e =>
    if root.length < e.1.length ∧ pathBelow root e.1
    then some (e.1.drop root.length, e.2) else none)

/-- Does `needle` occur as a contiguous run at the front of `hay`? -/
def listLeads : List Char → List Char → Bool
  | [], _ => true
  | _ :: _, [] => false
  | a :: as, b :: bs => a == b && listLeads as bs

/-- Python's `needle in s` on strings: substring containment. -/
def strContains (s sub : String) : Bool :=
  (List.range (s.data.length + 1)).any (fun i => listLeads sub.data (s.data.drop i))

/-- `str.lower()` restricted to what `Char.toLower` handles (ASCII case
folding, which covers Minecraft texture names). -/
def strLower (s : String) : String :=
  String.mk (s.data.map Char.toLower)

/-- `s.endswith(suf)` (used to state facts about produced path names). -/
def strEndsWith (s suf : String) : Bool :=
  decide (suf.data.length ≤ s.data.length ∧
    s.data.drop (s.data.length - suf.data.length) = suf.data)

/-- Index of the last `'.'` in a character list, if any (`str.rfind('.')`). -/
def rfindDot (cs : List Char) : Option Nat :=
  match cs.reverse.findIdx? (fun c => c == '.') with
  | some j => some (cs.length - 1 - j)
  | none => none

/-- `PurePath.suffix` of a file name: the final `"."`-extension, empty when
the only dot is leading or trailing. -/
def nameSuffix (name : String) : String :=
  let cs := name.data
  match rfindDot cs with
  | some i => if 0 < i ∧ i + 1 < cs.length then String.mk (cs.drop i) else ""
  | none => ""

/-- `PurePath.stem` of a file name: the name without its `nameSuffix`. -/
def stemOf (name : String) : String :=
  let cs := name.data
  match rfindDot cs with
  | some i => if 0 < i ∧ i + 1 < cs.length then String.mk (cs.take i) else name
  | none => name

/-- `PurePath.with_suffix` on a file name: replace the extension, or append
one when the name has none. -/
def withSuffixName (name suf : String) : String :=
  let f := nameSuffix name
  if f = "" then name ++ suf
  else String.mk (name.data.take (name.data.length - f.data.length)) ++ suf

/-- `Path.with_suffix` on a path: rewrite its last component. -/
def withSuffix (p : FPath) (suf : String) : FPath :=
  if p = [] then [] else p.dropLast ++ [withSuffixName (p.getLastD "") suf]

/-- The last component of a path (`PurePath.name`). -/
def pathName (p : FPath) : String :=
  p.getLastD ""

/-- The fnmatch pattern `*.png` used by `source_blocks.glob("*.png")`. -/
def globMatch (n : String) : Bool :=
  strEndsWith n ".png"

/-- Maps a candidate path to the matched name when it is a direct child of
`dir` whose name matches `*.png`. -/
def globEntry (dir : FPath) (p : FPath) : Option String :=
  if p = dir ++ [pathName p] ∧ globMatch (pathName p) = true
  then some (pathName p) else none

/-- `dir.glob("*.png")`: matching direct children that are files, in the
file table's order. -/
def FS.glob (fs : FS) (dir : FPath) : List String :=
  (fs.files.map (fun e => e.1)).filterMap (globEntry dir)

/-- `shutil.copy2(a, b)`: replicate `a`'s content at `b`.  (On a missing
source Python raises; here the sources come from `glob`, so they exist.) -/
def FS.copyFile (fs : FS) (a b : FPath) : FS :=
  match lookupFile fs a with
  | some c => fs.setFile b c
  | none => fs

/-- The constant `transparent_img = Image.new("RGBA", (16, 16), (0, 0, 0, 0))`. -/
def transparent_img : Img :=
  imageNew "RGBA" 16 16 ⟨0, 0, 0, 0⟩

/-- Loop body of `make_transparent_blocks`: copy the diamond textures,
save the constant blank image for every other matched name. -/
def mtbStep (source_blocks target_blocks : FPath) (fs : FS) (n : String) : FS :=
  if strContains (strLower (stemOf n)) "diamond" then
    fs.copyFile (source_blocks ++ [n]) (target_blocks ++ [n])
  else
    fs.setFile (target_blocks ++ [n]) (.png transparent_img)

/-- Result of a stage that can raise: on `err` the state at the raise
point is carried along. -/
inductive MTBResult where
  | ok : FS → MTBResult
  | err : String → FS → MTBResult

/-- `make_transparent_blocks(source_blocks, target_blocks)`. -/
def make_transparent_blocks (fs : FS) (source_blocks target_blocks : FPath) :
    MTBResult :=
  if fs.isDir source_blocks = false then
    .err "blocks folder not found" fs
  else
    let fs1 := fs.mkdirParents target_blocks
    .ok ((fs1.glob source_blocks).foldl (mtbStep source_blocks target_blocks) fs1)

/-- The manifest dictionary built by `write_manifest`, as a JSON value. -/
def manifestJson (name description header_uuid module_uuid : String) : Json :=
  .obj
    [("format_version", .num 2),
     ("header", .obj
        [("description", .str description),
         ("name", .str name),
         ("uuid", .str header_uuid),
         ("version", .arr [.num 1, .num 0, .num 0]),
         ("min_engine_version", .arr [.num 1, .num 16, .num 0])]),
     ("modules", .arr
        [.obj
           [("type", .str "resources"),
            ("uuid", .str module_uuid),
            ("version", .arr [.num 1, .num 0, .num 0])]])]

/-- `write_manifest(pack_root, name, description)`; the two `uuid.uuid4()`
draws are passed in as `header_uuid` and `module_uuid`. -/
def write_manifest (fs : FS) (pack_root : FPath)
    (name description header_uuid module_uuid : String) : FS :=
  let fs1 := fs.mkdirParents pack_root
  fs1.setFile (pack_root ++ ["manifest.json"])
    (.jsonFile (manifestJson name description header_uuid module_uuid))

/-- `write_default_icon(pack_root)`. -/
def write_default_icon (fs : FS) (pack_root : FPath) : FS :=
  let icon_path := pack_root ++ ["pack_icon.png"]
  if fs.pathExists icon_path then fs
  else fs.setFile icon_path (.png (imageNew "RGBA" 256 256 ⟨0, 0, 0, 0⟩))

/-- `build_mcpack(pack_root, output_file)`: zip `pack_root` to a temporary
`.zip` next to the output, delete any stale output, rename to `.mcpack`. -/
def build_mcpack (fs : FS) (pack_root : FPath) (output_file : FPath) : FS :=
  let output_file2 := withSuffix output_file ".mcpack"
  let temp_zip := withSuffix output_file2 ".zip"
  let fs1 := fs.setFile temp_zip (.zipArchive (fs.filesUnder pack_root))
  let fs2 := if fs1.pathExists output_file2 then fs1.removeFile output_file2 else fs1
  fs2.renameFile temp_zip output_file2

/-- The pipeline stages of `main`, for the temporal claims. -/
inductive Stage where
  | textures
  | manifest
  | icon
  | mcpack
deriving DecidableEq, Repr

/-- Parsed command-line arguments of `main` (paths already resolved). -/
structure Args where
  source_textures : FPath
  output_pack : FPath
  name : String
  description : String
  no_mcpack : Bool

/-- Result of a whole run: the final state and the trace of executed
stages, or the error message with the state at the raise point. -/
inductive RunResult where
  | ok : FS → List Stage → RunResult
  | err : String → FS → List Stage → RunResult

namespace XRayScript

/-- `main()`, after argument parsing; `u1`/`u2` are the two `uuid.uuid4()`
draws made inside `write_manifest`. -/
def main (args : Args) (u1 u2 : String) (fs : FS) : RunResult :=
  let source_root := args.source_textures
  if fs.isDir source_root = false then
    .err "Source folder does not exist" fs []
  else
    let source_blocks := source_root ++ ["blocks"]
    let pack_root := args.output_pack
    let target_blocks := pack_root ++ ["textures", "blocks"]
    match make_transparent_blocks fs source_blocks target_blocks with
    | .err m efs => .err m efs []
    | .ok fs1 =>
      let fs2 := write_manifest fs1 pack_root args.name args.description u1 u2
      let fs3 := write_default_icon fs2 pack_root
      if args.no_mcpack then
        .ok fs3 [.textures, .manifest, .icon]
      else
        let fs4 := build_mcpack fs3 pack_root (withSuffix pack_root ".mcpack")
        .ok fs4 [.textures, .manifest, .icon, .mcpack]

end XRayScript

/-- Well-formedness of the file table: one entry per path. -/
def FS.WF (fs : FS) : Prop :=
  (fs.files.map (fun e => e.1)).Nodup

/-! ### Basic lemmas about the file-system model -/

theorem pathBelow_iff {dir p : FPath} : pathBelow dir p ↔ ∃ t, p = dir ++ t := by
  constructor
  · intro h
    refine ⟨p.drop dir.length, ?_⟩
    conv_lhs => rw [← List.take_append_drop dir.length p]
    rw [h]
  · rintro ⟨t, rfl⟩
    exact List.take_left dir t

theorem pathBelow_refl (p : FPath) : pathBelow p p :=
  List.take_length p

theorem pathBelow_length {dir p : FPath} (h : pathBelow dir p) :
    dir.length ≤ p.length := by
  obtain ⟨t, rfl⟩ := pathBelow_iff.mp h
  simp

theorem find?_filter_ne (l : List (FPath × FileContent)) (p q : FPath) (hpq : p ≠ q) :
    (l.filter (fun e => decide (e.1 ≠ q))).find? (fun e => decide (e.1 = p)) =
      l.find? (fun e => decide (e.1 = p)) := by
  rw [List.find?_filter]
  induction l with
  | nil => rfl
  | cons e l ih =>
    rw [List.find?_cons, List.find?_cons]
    cases hp : decide (e.1 = p) with
    | true =>
      have h1 : e.1 = p := of_decide_eq_true hp
      have hne : e.1 ≠ q := fun h => hpq (h1 ▸ h)
      simp [hne]
    | false =>
      simpa using ih

theorem lookupFile_setFile (fs : FS) (q : FPath) (c : FileContent) (p : FPath) :
    lookupFile (fs.setFile q c) p = if p = q then some c else lookupFile fs p := by
  unfold lookupFile FS.setFile
  by_cases hpq : p = q
  · subst hpq
    simp [List.find?_cons]
  · have hqp : (decide (q = p)) = false := by
      simp only [decide_eq_false_iff_not]
      intro h; exact hpq h.symm
    simp only [List.find?_cons, hqp, if_neg hpq, find?_filter_ne fs.files p q hpq]

theorem lookupFile_removeFile (fs : FS) (q p : FPath) :
    lookupFile (fs.removeFile q) p = if p = q then none else lookupFile fs p := by
  unfold lookupFile FS.removeFile
  by_cases hpq : p = q
  · subst hpq
    have hnone : (fs.files.filter (fun e => decide (e.1 ≠ p))).find?
        (fun e => decide (e.1 = p)) = none := by
      rw [List.find?_eq_none]
      intro x hx
      rw [List.mem_filter] at hx
      simpa using hx.2
    simp [hnone]
  · simp only [find?_filter_ne fs.files p q hpq, if_neg hpq]

theorem files_mkdirParents (fs : FS) (q : FPath) :
    (fs.mkdirParents q).files = fs.files := rfl

theorem lookupFile_mkdirParents (fs : FS) (q p : FPath) :
    lookupFile (fs.mkdirParents q) p = lookupFile fs p := rfl

theorem glob_mkdirParents (fs : FS) (q dir : FPath) :
    (fs.mkdirParents q).glob dir = fs.glob dir := rfl

theorem mem_allPrefixes {q p : FPath} : q ∈ allPrefixes p ↔ pathBelow q p := by
  unfold allPrefixes
  simp only [List.mem_map, List.mem_range]
  constructor
  · rintro ⟨i, hi, rfl⟩
    unfold pathBelow
    rw [List.length_take, Nat.min_eq_left (Nat.lt_succ_iff.mp hi)]
  · intro h
    exact ⟨q.length, Nat.lt_succ_of_le (pathBelow_length h), h⟩

theorem mem_dirs_mkdirParents {fs : FS} {q p : FPath} :
    p ∈ (fs.mkdirParents q).dirs ↔ pathBelow p q ∨ p ∈ fs.dirs := by
  unfold FS.mkdirParents
  simp only [List.mem_append, mem_allPrefixes]

theorem isDir_iff {fs : FS} {p : FPath} : fs.isDir p = true ↔ p ∈ fs.dirs := by
  simp [FS.isDir]

theorem pathExists_iff {fs : FS} {p : FPath} :
    fs.pathExists p = true ↔ (lookupFile fs p).isSome = true ∨ p ∈ fs.dirs := by
  simp [FS.pathExists]

theorem pathName_concat (l : FPath) (n : String) : pathName (l ++ [n]) = n := by
  unfold pathName
  exact List.getLastD_concat _ _ _

theorem globEntry_eq_some {dir p : FPath} {n : String} :
    globEntry dir p = some n ↔ p = dir ++ [n] ∧ globMatch n = true := by
  unfold globEntry
  constructor
  · intro h
    by_cases hc : p = dir ++ [pathName p] ∧ globMatch (pathName p) = true
    · rw [if_pos hc] at h
      injection h with h
      exact ⟨h ▸ hc.1, h ▸ hc.2⟩
    · rw [if_neg hc] at h
      exact absurd h (by simp)
  · rintro ⟨rfl, hm⟩
    rw [if_pos (by rw [pathName_concat]; exact ⟨rfl, hm⟩)]
    rw [pathName_concat]

theorem mem_glob {fs : FS} {dir : FPath} {n : String} :
    n ∈ fs.glob dir ↔ globMatch n = true ∧ ∃ c, (dir ++ [n], c) ∈ fs.files := by
  unfold FS.glob
  rw [List.mem_filterMap]
  constructor
  · rintro ⟨p, hp, hpe⟩
    rw [globEntry_eq_some] at hpe
    obtain ⟨rfl, hm⟩ := hpe
    rw [List.mem_map] at hp
    obtain ⟨⟨pf, cf⟩, he, hfst⟩ := hp
    simp only at hfst
    subst hfst
    exact ⟨hm, cf, he⟩
  · rintro ⟨hm, c, hc⟩
    refine ⟨dir ++ [n], List.mem_map.mpr ⟨(dir ++ [n], c), hc, rfl⟩, ?_⟩
    rw [globEntry_eq_some]
    exact ⟨rfl, hm⟩

theorem glob_nodup {fs : FS} (hWF : fs.WF) (dir : FPath) : (fs.glob dir).Nodup := by
  unfold FS.glob
  refine List.Nodup.filterMap ?_ hWF
  intro a a' b hb hb'
  rw [Option.mem_def] at hb hb'
  rw [globEntry_eq_some] at hb hb'
  rw [hb.1, hb'.1]

theorem lookup_isSome_of_mem_glob {fs : FS} {dir : FPath} {n : String}
    (h : n ∈ fs.glob dir) : (lookupFile fs (dir ++ [n])).isSome = true := by
  obtain ⟨hm, c, hc⟩ := mem_glob.mp h
  unfold lookupFile
  cases hf : fs.files.find? (fun e => decide (e.1 = dir ++ [n])) with
  | some e => simp
  | none =>
    rw [List.find?_eq_none] at hf
    exact absurd (by simp : (decide ((dir ++ [n], c).1 = dir ++ [n])) = true)
      (by simpa using hf _ hc)

/-! ### The texture loop of `make_transparent_blocks` -/

theorem lookupFile_mtbStep_ne (src tgt : FPath) (fs : FS) (n : String) (p : FPath)
    (hp : p ≠ tgt ++ [n]) :
    lookupFile (mtbStep src tgt fs n) p = lookupFile fs p := by
  unfold mtbStep FS.copyFile
  by_cases hd : strContains (strLower (stemOf n)) "diamond" = true
  · rw [if_pos hd]
    cases hsrc : lookupFile fs (src ++ [n]) with
    | some c => rw [lookupFile_setFile, if_neg hp]
    | none => rfl
  · rw [if_neg hd, lookupFile_setFile, if_neg hp]

theorem lookupFile_mtbFold_frame (src tgt : FPath) (names : List String) (fs : FS)
    (p : FPath) (hp : ∀ n ∈ names, p ≠ tgt ++ [n]) :
    lookupFile (names.foldl (mtbStep src tgt) fs) p = lookupFile fs p := by
  induction names generalizing fs with
  | nil => rfl
  | cons m rest ih =>
    rw [List.foldl_cons, ih _ (fun n hn => hp n (List.mem_cons_of_mem m hn)),
      lookupFile_mtbStep_ne src tgt fs m p (hp m (List.mem_cons_self m rest))]

theorem lookupFile_mtbFold_hit (src tgt : FPath) (hst : src ≠ tgt)
    (names : List String) (fs : FS) (n : String) (hn : n ∈ names)
    (hsrc : (lookupFile fs (src ++ [n])).isSome = true) :
    lookupFile (names.foldl (mtbStep src tgt) fs) (tgt ++ [n]) =
      if strContains (strLower (stemOf n)) "diamond" then lookupFile fs (src ++ [n])
      else some (.png transparent_img) := by
  induction names generalizing fs with
  | nil => cases hn
  | cons m rest ih =>
    rw [List.foldl_cons]
    have hdiff : ∀ k : String, src ++ [n] ≠ tgt ++ [k] := by
      intro k he
      exact hst (List.append_inj' he rfl).1
    by_cases hr : n ∈ rest
    · have hs' : lookupFile (mtbStep src tgt fs m) (src ++ [n]) =
          lookupFile fs (src ++ [n]) :=
        lookupFile_mtbStep_ne src tgt fs m (src ++ [n]) (hdiff m)
      rw [ih _ hr (by rw [hs']; exact hsrc), hs']
    · have hm : n = m := by
        rcases List.mem_cons.mp hn with h | h
        · exact h
        · exact absurd h hr
      subst hm
      have hfr : ∀ k ∈ rest, tgt ++ [n] ≠ tgt ++ [k] := by
        intro k hk he
        have h2 : [n] = [k] := List.append_cancel_left he
        have h3 : n = k := by injection h2
        exact hr (by rw [h3]; exact hk)
      rw [lookupFile_mtbFold_frame src tgt rest _ _ hfr]
      unfold mtbStep FS.copyFile
      by_cases hd : strContains (strLower (stemOf n)) "diamond" = true
      · rw [if_pos hd, if_pos hd]
        cases hl : lookupFile fs (src ++ [n]) with
        | some c =>
          show lookupFile (fs.setFile (tgt ++ [n]) c) (tgt ++ [n]) = some c
          rw [lookupFile_setFile, if_pos rfl]
        | none => rw [hl] at hsrc; simp at hsrc
      · rw [if_neg hd, if_neg hd, lookupFile_setFile, if_pos rfl]

theorem mtb_ok_elim {fs : FS} {src tgt : FPath} {fs' : FS}
    (hok : make_transparent_blocks fs src tgt = .ok fs') :
    fs.isDir src = true ∧
    fs' = (fs.glob src).foldl (mtbStep src tgt) (fs.mkdirParents tgt) := by
  unfold make_transparent_blocks at hok
  by_cases hd : fs.isDir src = false
  · rw [if_pos hd] at hok
    exact absurd hok (by simp)
  · rw [if_neg hd] at hok
    injection hok with h
    refine ⟨by revert hd; cases fs.isDir src <;> simp, h.symm⟩

theorem mtb_err_elim {fs : FS} {src tgt : FPath} {m : String} {efs : FS}
    (herr : make_transparent_blocks fs src tgt = .err m efs) :
    fs.isDir src = false ∧ efs = fs := by
  unfold make_transparent_blocks at herr
  by_cases hd : fs.isDir src = false
  · rw [if_pos hd] at herr
    injection herr with h1 h2
    exact ⟨hd, h2.symm⟩
  · rw [if_neg hd] at herr
    exact absurd herr (by simp)

/-! ### The manifest, icon and archive stages -/

theorem lookupFile_write_manifest (fs : FS) (pr : FPath) (nm ds u1 u2 : String)
    (p : FPath) :
    lookupFile (write_manifest fs pr nm ds u1 u2) p =
      if p = pr ++ ["manifest.json"] then some (.jsonFile (manifestJson nm ds u1 u2))
      else lookupFile fs p := by
  unfold write_manifest
  rw [lookupFile_setFile]
  rfl

theorem write_default_icon_of_exists {fs : FS} {pr : FPath}
    (h : fs.pathExists (pr ++ ["pack_icon.png"]) = true) :
    write_default_icon fs pr = fs := by
  unfold write_default_icon
  rw [if_pos h]

theorem write_default_icon_of_not_exists {fs : FS} {pr : FPath}
    (h : fs.pathExists (pr ++ ["pack_icon.png"]) = false) :
    write_default_icon fs pr =
      fs.setFile (pr ++ ["pack_icon.png"])
        (.png (imageNew "RGBA" 256 256 ⟨0, 0, 0, 0⟩)) := by
  unfold write_default_icon
  rw [if_neg (by simp [h])]

theorem pathExists_setFile_self (fs : FS) (p : FPath) (c : FileContent) :
    (fs.setFile p c).pathExists p = true := by
  unfold FS.pathExists
  rw [lookupFile_setFile, if_pos rfl]
  simp

theorem withSuffixName_eq_append (nm suf : String) :
    ∃ b, withSuffixName nm suf = b ++ suf := by
  by_cases h : nameSuffix nm = ""
  · exact ⟨nm, by unfold withSuffixName; simp [h]⟩
  · exact ⟨String.mk (nm.data.take (nm.data.length - (nameSuffix nm).data.length)),
      by unfold withSuffixName; simp [h]⟩

theorem strEndsWith_append (a suf : String) : strEndsWith (a ++ suf) suf = true := by
  unfold strEndsWith
  simp only [decide_eq_true_eq, String.data_append, List.length_append]
  constructor
  · omega
  · rw [Nat.add_sub_cancel, List.drop_left]

theorem getLast?_data_append_ne (a b : String) (hb : b.data ≠ []) :
    (a ++ b).data.getLast? = b.data.getLast? := by
  rw [String.data_append, List.getLast?_append]
  cases hl : b.data.getLast? with
  | some ch => rfl
  | none => exact absurd (List.getLast?_eq_none_iff.mp hl) hb

theorem withSuffixName_zip_ne_mcpack (s t : String) :
    withSuffixName s ".zip" ≠ withSuffixName t ".mcpack" := by
  intro he
  obtain ⟨b1, h1⟩ := withSuffixName_eq_append s ".zip"
  obtain ⟨b2, h2⟩ := withSuffixName_eq_append t ".mcpack"
  rw [h1, h2] at he
  have g1 : (b1 ++ ".zip").data.getLast? = some 'p' := by
    rw [getLast?_data_append_ne _ _ (by decide)]
    decide
  have g2 : (b2 ++ ".mcpack").data.getLast? = some 'k' := by
    rw [getLast?_data_append_ne _ _ (by decide)]
    decide
  rw [he, g2] at g1
  injection g1 with g
  exact absurd g (by decide)

theorem withSuffix_ne_nil {p : FPath} (hp : p ≠ []) (suf : String) :
    withSuffix p suf ≠ [] := by
  unfold withSuffix
  rw [if_neg hp]
  simp

theorem length_withSuffix {p : FPath} (hp : p ≠ []) (suf : String) :
    (withSuffix p suf).length = p.length := by
  unfold withSuffix
  rw [if_neg hp, List.length_append, List.length_dropLast]
  have : 0 < p.length := List.length_pos.mpr hp
  simp
  omega

theorem pathName_withSuffix {p : FPath} (hp : p ≠ []) (suf : String) :
    pathName (withSuffix p suf) = withSuffixName (p.getLastD "") suf := by
  unfold withSuffix
  rw [if_neg hp, pathName_concat]

theorem withSuffix_mcpack_endsWith {p : FPath} (hp : p ≠ []) :
    strEndsWith (pathName (withSuffix p ".mcpack")) ".mcpack" = true := by
  rw [pathName_withSuffix hp]
  obtain ⟨b, hb⟩ := withSuffixName_eq_append (p.getLastD "") ".mcpack"
  rw [hb]
  exact strEndsWith_append b ".mcpack"

theorem temp_zip_ne_mcpack {q r : FPath} (hq : q ≠ []) (hr : r ≠ []) :
    withSuffix q ".zip" ≠ withSuffix r ".mcpack" := by
  intro he
  unfold withSuffix at he
  rw [if_neg hq, if_neg hr] at he
  have h2 := (List.append_inj' he rfl).2
  injection h2 with h3
  exact withSuffixName_zip_ne_mcpack _ _ h3

theorem lookupFile_renameFile_of_some {fs : FS} {a : FPath} {c : FileContent}
    (ha : lookupFile fs a = some c) (b p : FPath) :
    lookupFile (fs.renameFile a b) p =
      if p = b then some c else if p = a then none else lookupFile fs p := by
  unfold FS.renameFile
  rw [ha]
  show lookupFile ((fs.removeFile a).setFile b c) p = _
  rw [lookupFile_setFile, lookupFile_removeFile]

theorem lookup_zip_unlink_rename (fs : FS) (z : FileContent) (temp out2 : FPath)
    (hne : temp ≠ out2) (p : FPath) :
    lookupFile ((if (fs.setFile temp z).pathExists out2 = true
                 then (fs.setFile temp z).removeFile out2
                 else fs.setFile temp z).renameFile temp out2) p =
      if p = out2 then some z else if p = temp then none else lookupFile fs p := by
  by_cases hex : (fs.setFile temp z).pathExists out2 = true
  · rw [if_pos hex]
    have ha : lookupFile ((fs.setFile temp z).removeFile out2) temp = some z := by
      rw [lookupFile_removeFile, if_neg hne, lookupFile_setFile, if_pos rfl]
    rw [lookupFile_renameFile_of_some ha]
    by_cases hb : p = out2
    · rw [if_pos hb, if_pos hb]
    · rw [if_neg hb, if_neg hb]
      by_cases ht : p = temp
      · rw [if_pos ht, if_pos ht]
      · rw [if_neg ht, if_neg ht, lookupFile_removeFile, if_neg hb,
          lookupFile_setFile, if_neg ht]
  · rw [if_neg hex]
    have ha : lookupFile (fs.setFile temp z) temp = some z := by
      rw [lookupFile_setFile, if_pos rfl]
    rw [lookupFile_renameFile_of_some ha]
    by_cases hb : p = out2
    · rw [if_pos hb, if_pos hb]
    · rw [if_neg hb, if_neg hb]
      by_cases ht : p = temp
      · rw [if_pos ht, if_pos ht]
      · rw [if_neg ht, if_neg ht, lookupFile_setFile, if_neg ht]

theorem lookupFile_build_mcpack (fs : FS) (pr : FPath) {out : FPath} (hout : out ≠ [])
    (p : FPath) :
    lookupFile (build_mcpack fs pr out) p =
      if p = withSuffix out ".mcpack" then some (.zipArchive (fs.filesUnder pr))
      else if p = withSuffix (withSuffix out ".mcpack") ".zip" then none
      else lookupFile fs p :=
  lookup_zip_unlink_rename fs (.zipArchive (fs.filesUnder pr))
    (withSuffix (withSuffix out ".mcpack") ".zip") (withSuffix out ".mcpack")
    (temp_zip_ne_mcpack (withSuffix_ne_nil hout ".mcpack") hout) p

theorem mem_filesUnder_of_lookup {fs : FS} {root rel : FPath} {c : FileContent}
    (hrel : rel ≠ []) (h : lookupFile fs (root ++ rel) = some c) :
    (rel, c) ∈ fs.filesUnder root := by
  unfold lookupFile at h
  cases hf : fs.files.find? (fun e => decide (e.1 = root ++ rel)) with
  | none => rw [hf] at h; simp at h
  | some e =>
    have hpred := List.find?_some hf
    have hmem : e ∈ fs.files := List.mem_of_find?_eq_some hf
    have he1 : e.1 = root ++ rel := of_decide_eq_true hpred
    rw [hf, Option.map_some'] at h
    injection h with h
    unfold FS.filesUnder
    rw [List.mem_filterMap]
    refine ⟨e, hmem, ?_⟩
    rw [he1, h]
    have hcond : root.length < (root ++ rel).length ∧ pathBelow root (root ++ rel) := by
      constructor
      · rw [List.length_append]
        have : 0 < rel.length := List.length_pos.mpr hrel
        omega
      · exact pathBelow_iff.mpr ⟨rel, rfl⟩
    rw [if_pos hcond, List.drop_left]

theorem ne_of_not_pathBelow {src tgt : FPath} (h : ¬ pathBelow src tgt) : src ≠ tgt := by
  intro he
  exact h (he ▸ pathBelow_refl src)

theorem not_target_child_of_under_src {src tgt p : FPath} (hpre : ¬ pathBelow src tgt)
    (hunder : pathBelow src p) (hne : p ≠ src) (k : String) : p ≠ tgt ++ [k] := by
  intro he
  subst he
  obtain ⟨t, ht⟩ := pathBelow_iff.mp hunder
  rcases List.eq_nil_or_concat t with rfl | ⟨t0, e, rfl⟩
  · exact hne (by rw [ht, List.append_nil])
  · rw [List.concat_eq_append, ← List.append_assoc] at ht
    have h1 := (List.append_inj' ht rfl).1
    exact hpre (pathBelow_iff.mpr ⟨t0, h1⟩)

/-! ### Whole-run characterisation of `main` -/

/-- Field access in a JSON object. -/
def jsonLookup (j : Json) (key : String) : Option Json :=
  match j with
  | .obj fields => (fields.find? (fun f => decide (f.1 = key))).map (fun f => f.2)
  | _ => none

/-- The state after the texture stage of a run whose checks passed. -/
def texturesStage (args : Args) (fs : FS) : FS :=
  ((fs.mkdirParents (args.output_pack ++ ["textures", "blocks"])).glob
      (args.source_textures ++ ["blocks"])).foldl
    (mtbStep (args.source_textures ++ ["blocks"])
      (args.output_pack ++ ["textures", "blocks"]))
    (fs.mkdirParents (args.output_pack ++ ["textures", "blocks"]))

/-- The state after the manifest and icon stages. -/
def metaStages (args : Args) (u1 u2 : String) (fs : FS) : FS :=
  write_default_icon
    (write_manifest fs args.output_pack args.name args.description u1 u2)
    args.output_pack

theorem mtb_eq_ok {fs : FS} {src : FPath} (tgt : FPath) (h : fs.isDir src = true) :
    make_transparent_blocks fs src tgt =
      .ok (((fs.mkdirParents tgt).glob src).foldl (mtbStep src tgt)
        (fs.mkdirParents tgt)) := by
  unfold make_transparent_blocks
  rw [if_neg (by simp [h])]

theorem main_eq_ok_of_checks {args : Args} {u1 u2 : String} {fs : FS}
    (h1 : fs.isDir args.source_textures = true)
    (h2 : fs.isDir (args.source_textures ++ ["blocks"]) = true) :
    XRayScript.main args u1 u2 fs =
      if args.no_mcpack then
        .ok (metaStages args u1 u2 (texturesStage args fs))
          [.textures, .manifest, .icon]
      else
        .ok (build_mcpack (metaStages args u1 u2 (texturesStage args fs))
              args.output_pack (withSuffix args.output_pack ".mcpack"))
          [.textures, .manifest, .icon, .mcpack] := by
  unfold XRayScript.main
  rw [if_neg (by simp [h1])]
  dsimp only
  rw [mtb_eq_ok (args.output_pack ++ ["textures", "blocks"]) h2]
  rfl

theorem main_err_of_src {args : Args} {u1 u2 : String} {fs : FS}
    (h1 : fs.isDir args.source_textures = false) :
    XRayScript.main args u1 u2 fs = .err "Source folder does not exist" fs [] := by
  unfold XRayScript.main
  rw [if_pos h1]

theorem main_err_of_blocks {args : Args} {u1 u2 : String} {fs : FS}
    (h1 : fs.isDir args.source_textures = true)
    (h2 : fs.isDir (args.source_textures ++ ["blocks"]) = false) :
    XRayScript.main args u1 u2 fs = .err "blocks folder not found" fs [] := by
  unfold XRayScript.main
  rw [if_neg (by simp [h1])]
  dsimp only
  rw [show make_transparent_blocks fs (args.source_textures ++ ["blocks"])
      (args.output_pack ++ ["textures", "blocks"]) = .err "blocks folder not found" fs from by
    unfold make_transparent_blocks
    rw [if_pos h2]]

theorem main_ok_elim {args : Args} {u1 u2 : String} {fs fs' : FS} {tr : List Stage}
    (hok : XRayScript.main args u1 u2 fs = .ok fs' tr) :
    fs.isDir args.source_textures = true ∧
    fs.isDir (args.source_textures ++ ["blocks"]) = true ∧
    ((args.no_mcpack = true ∧ tr = [.textures, .manifest, .icon] ∧
        fs' = metaStages args u1 u2 (texturesStage args fs)) ∨
     (args.no_mcpack = false ∧ tr = [.textures, .manifest, .icon, .mcpack] ∧
        fs' = build_mcpack (metaStages args u1 u2 (texturesStage args fs))
                args.output_pack (withSuffix args.output_pack ".mcpack"))) := by
  by_cases h1 : fs.isDir args.source_textures = true
  · by_cases h2 : fs.isDir (args.source_textures ++ ["blocks"]) = true
    · refine ⟨h1, h2, ?_⟩
      rw [main_eq_ok_of_checks h1 h2] at hok
      cases h3 : args.no_mcpack with
      | true =>
        rw [h3] at hok
        simp only [if_true] at hok
        injection hok with ha hb
        exact Or.inl ⟨rfl, hb.symm, ha.symm⟩
      | false =>
        rw [h3] at hok
        simp only [Bool.false_eq_true, if_false] at hok
        injection hok with ha hb
        exact Or.inr ⟨rfl, hb.symm, ha.symm⟩
    · have h2' : fs.isDir (args.source_textures ++ ["blocks"]) = false := by
        revert h2; cases fs.isDir (args.source_textures ++ ["blocks"]) <;> simp
      rw [main_err_of_blocks h1 h2'] at hok
      exact absurd hok (by simp)
  · have h1' : fs.isDir args.source_textures = false := by
      revert h1; cases fs.isDir args.source_textures <;> simp
    rw [main_err_of_src h1'] at hok
    exact absurd hok (by simp)

/-! ### Frame lemmas through the pipeline stages -/

theorem append_single_ne (pr : FPath) {a b : String} (h : a ≠ b) :
    pr ++ [a] ≠ pr ++ [b] := by
  intro he
  have h2 := List.append_cancel_left he
  injection h2 with h3
  exact h h3

theorem not_pathBelow_of_longer {q p : FPath} (h : p.length < q.length) :
    ¬ pathBelow q p := by
  intro hb
  have := pathBelow_length hb
  omega

theorem not_below_sibling {pr t1 : FPath} {a b : String} (hab : a ≠ b) :
    ¬ pathBelow (pr ++ [a]) (pr ++ b :: t1) := by
  intro h
  obtain ⟨t, ht⟩ := pathBelow_iff.mp h
  rw [List.append_assoc] at ht
  have h2 := List.append_cancel_left ht
  injection h2 with h3
  exact hab h3.symm

theorem dirs_mtbStep (src tgt : FPath) (fs : FS) (n : String) :
    (mtbStep src tgt fs n).dirs = fs.dirs := by
  unfold mtbStep FS.copyFile FS.setFile
  by_cases hd : strContains (strLower (stemOf n)) "diamond" = true
  · rw [if_pos hd]
    cases lookupFile fs (src ++ [n]) <;> rfl
  · rw [if_neg hd]

theorem dirs_mtbFold (src tgt : FPath) (names : List String) (fs : FS) :
    (names.foldl (mtbStep src tgt) fs).dirs = fs.dirs := by
  induction names generalizing fs with
  | nil => rfl
  | cons m rest ih => rw [List.foldl_cons, ih, dirs_mtbStep]

theorem dirs_texturesStage (args : Args) (fs : FS) :
    (texturesStage args fs).dirs =
      allPrefixes (args.output_pack ++ ["textures", "blocks"]) ++ fs.dirs := by
  unfold texturesStage
  rw [dirs_mtbFold]
  rfl

theorem dirs_write_manifest (fs : FS) (pr : FPath) (nm ds u1 u2 : String) :
    (write_manifest fs pr nm ds u1 u2).dirs = allPrefixes pr ++ fs.dirs := rfl

theorem lookupFile_texturesStage_short (args : Args) (fs : FS) (p : FPath)
    (hp : p.length ≠ args.output_pack.length + 3) :
    lookupFile (texturesStage args fs) p = lookupFile fs p := by
  unfold texturesStage
  rw [lookupFile_mtbFold_frame _ _ _ _ _ ?frame]
  case frame =>
    intro n hn he
    apply hp
    rw [he, List.length_append, List.length_append]
    simp
  rfl

theorem lookupFile_write_default_icon_ne {fs : FS} {pr p : FPath}
    (hp : p ≠ pr ++ ["pack_icon.png"]) :
    lookupFile (write_default_icon fs pr) p = lookupFile fs p := by
  unfold write_default_icon
  by_cases h : fs.pathExists (pr ++ ["pack_icon.png"]) = true
  · rw [if_pos h]
  · rw [if_neg h, lookupFile_setFile, if_neg hp]

theorem lookupFile_metaStages_manifest (args : Args) (u1 u2 : String) (fs : FS) :
    lookupFile (metaStages args u1 u2 fs) (args.output_pack ++ ["manifest.json"]) =
      some (.jsonFile (manifestJson args.name args.description u1 u2)) := by
  unfold metaStages
  rw [lookupFile_write_default_icon_ne (append_single_ne _ (by decide)),
    lookupFile_write_manifest, if_pos rfl]

theorem lookupFile_metaStages_ne (args : Args) (u1 u2 : String) (fs : FS) (p : FPath)
    (h1 : p ≠ args.output_pack ++ ["manifest.json"])
    (h2 : p ≠ args.output_pack ++ ["pack_icon.png"]) :
    lookupFile (metaStages args u1 u2 fs) p = lookupFile fs p := by
  unfold metaStages
  rw [lookupFile_write_default_icon_ne h2, lookupFile_write_manifest, if_neg h1]

theorem length_append_single (pr : FPath) (a : String) :
    (pr ++ [a]).length = pr.length + 1 := by
  rw [List.length_append]
  rfl

theorem pathExists_metaStage_pre (args : Args) (u1 u2 : String) (fs : FS) :
    (write_manifest (texturesStage args fs) args.output_pack
        args.name args.description u1 u2).pathExists
        (args.output_pack ++ ["pack_icon.png"]) =
      fs.pathExists (args.output_pack ++ ["pack_icon.png"]) := by
  unfold FS.pathExists
  have hlk : lookupFile (write_manifest (texturesStage args fs) args.output_pack
      args.name args.description u1 u2) (args.output_pack ++ ["pack_icon.png"]) =
      lookupFile fs (args.output_pack ++ ["pack_icon.png"]) := by
    rw [lookupFile_write_manifest, if_neg (append_single_ne _ (by decide)),
      lookupFile_texturesStage_short args fs _ (by rw [length_append_single]; omega)]
  rw [hlk]
  have hdm : ((args.output_pack ++ ["pack_icon.png"]) ∈
      (write_manifest (texturesStage args fs) args.output_pack
        args.name args.description u1 u2).dirs) ↔
      ((args.output_pack ++ ["pack_icon.png"]) ∈ fs.dirs) := by
    rw [dirs_write_manifest, dirs_texturesStage]
    simp only [List.mem_append, mem_allPrefixes]
    constructor
    · intro h
      rcases h with h | h | h
      · exact absurd h (not_pathBelow_of_longer (by rw [length_append_single]; omega))
      · exact absurd h (not_below_sibling (by decide))
      · exact h
    · intro h
      exact Or.inr (Or.inr h)
  rw [decide_eq_decide.mpr hdm]

theorem lookupFile_metaStages_icon_absent (args : Args) (u1 u2 : String) (fs : FS)
    (h : fs.pathExists (args.output_pack ++ ["pack_icon.png"]) = false) :
    lookupFile (metaStages args u1 u2 (texturesStage args fs))
        (args.output_pack ++ ["pack_icon.png"]) =
      some (.png (imageNew "RGBA" 256 256 ⟨0, 0, 0, 0⟩)) := by
  unfold metaStages
  rw [write_default_icon_of_not_exists (by rw [pathExists_metaStage_pre]; exact h),
    lookupFile_setFile, if_pos rfl]

theorem lookupFile_metaStages_icon_present (args : Args) (u1 u2 : String) (fs : FS)
    {c : FileContent}
    (h : lookupFile fs (args.output_pack ++ ["pack_icon.png"]) = some c) :
    lookupFile (metaStages args u1 u2 (texturesStage args fs))
        (args.output_pack ++ ["pack_icon.png"]) = some c := by
  have hM : lookupFile (write_manifest (texturesStage args fs) args.output_pack
      args.name args.description u1 u2) (args.output_pack ++ ["pack_icon.png"]) = some c := by
    rw [lookupFile_write_manifest, if_neg (append_single_ne _ (by decide)),
      lookupFile_texturesStage_short args fs _ (by rw [length_append_single]; omega)]
    exact h
  unfold metaStages
  rw [write_default_icon_of_exists (by unfold FS.pathExists; rw [hM]; simp)]
  exact hM

theorem lookupFile_build_mcpack_long {fs : FS} (pr : FPath) {out p : FPath}
    (hout : out ≠ []) (hp : p.length ≠ out.length) :
    lookupFile (build_mcpack fs pr out) p = lookupFile fs p := by
  have h1 : p ≠ withSuffix out ".mcpack" := by
    intro he
    apply hp
    rw [he, length_withSuffix hout]
  have h2 : p ≠ withSuffix (withSuffix out ".mcpack") ".zip" := by
    intro he
    apply hp
    rw [he, length_withSuffix (withSuffix_ne_nil hout ".mcpack"), length_withSuffix hout]
  rw [lookupFile_build_mcpack fs pr hout, if_neg h1, if_neg h2]

/-! ### Concrete inputs used by the witnesses -/

/-- A source tree with one diamond texture, one plain texture and one
non-PNG file. -/
def fsDemo : FS :=
  { files := [(["src", "blocks", "stone.png"], .raw [0]),
              (["src", "blocks", "diamond_ore.png"], .raw [7]),
              (["src", "blocks", "notes.txt"], .raw [1])],
    dirs := [["src"], ["src", "blocks"]] }

/-- The same file names as `fsDemo` with different image data. -/
def fsAlt : FS :=
  { files := [(["src", "blocks", "stone.png"], .raw [5, 5]),
              (["src", "blocks", "diamond_ore.png"], .raw [8, 8]),
              (["src", "blocks", "notes.txt"], .raw [2])],
    dirs := [["src"], ["src", "blocks"]] }

/-- A run input whose pack directory already carries a custom icon. -/
def fsIcon : FS :=
  { files := [(["src", "blocks", "stone.png"], .raw [0]),
              (["pack", "pack_icon.png"], .raw [9])],
    dirs := [["src"], ["src", "blocks"]] }

/-- An empty file system: the source check fails on it. -/
def fsEmpty : FS :=
  { files := [], dirs := [] }

/-- A pack directory that already carries an icon file. -/
def fsIcon8 : FS :=
  { files := [(["p", "pack_icon.png"], .raw [1])], dirs := [] }

/-- Arguments of a demonstration run (archive enabled). -/
def argsDemo : Args :=
  { source_textures := ["src"], output_pack := ["pack"],
    name := "XRay Transparent Blocks Pack",
    description := "Hides all block textures except diamond-related ones.",
    no_mcpack := false }

/-- Arguments of a run without archiving. -/
def argsIcon : Args :=
  { source_textures := ["src"], output_pack := ["pack"],
    name := "N", description := "D", no_mcpack := true }

/-! ### The claims -/

/-- C1: for every file matched by `source_blocks.glob("*.png")`,
`make_transparent_blocks` writes a file of the same name into
`target_blocks`: when "diamond" occurs in the lowercased stem the source
file is copied unchanged, otherwise the written file is the 16x16 RGBA
image whose every pixel is (0, 0, 0, 0). -/
theorem mtb_per_matched_file (fs : FS) (src tgt : FPath) (n : String) (fs' : FS)
    (hst : src ≠ tgt)
    (hok : make_transparent_blocks fs src tgt = .ok fs')
    (hn : n ∈ fs.glob src) :
    (strContains (strLower (stemOf n)) "diamond" = true →
        lookupFile fs' (tgt ++ [n]) = lookupFile fs (src ++ [n])) ∧
    (strContains (strLower (stemOf n)) "diamond" = false →
        lookupFile fs' (tgt ++ [n]) = some (.png transparent_img)) ∧
    transparent_img.mode = "RGBA" ∧
    transparent_img.width = 16 ∧ transparent_img.height = 16 ∧
    (∀ row ∈ transparent_img.pixels, ∀ px ∈ row, px = ⟨0, 0, 0, 0⟩) := by
  obtain ⟨hdir, rfl⟩ := mtb_ok_elim hok
  have hsrc : (lookupFile (fs.mkdirParents tgt) (src ++ [n])).isSome = true :=
    lookup_isSome_of_mem_glob hn
  have hhit := lookupFile_mtbFold_hit src tgt hst (fs.glob src)
    (fs.mkdirParents tgt) n hn hsrc
  refine ⟨?_, ?_, rfl, rfl, rfl, ?_⟩
  · intro hd
    rw [hhit, if_pos hd]
    rfl
  · intro hd
    rw [hhit, if_neg (by simp [hd])]
  · intro row hrow px hpx
    have hpix : transparent_img.pixels =
        List.replicate 16 (List.replicate 16 ⟨0, 0, 0, 0⟩) := rfl
    rw [hpix] at hrow
    rw [List.eq_of_mem_replicate hrow] at hpx
    exact List.eq_of_mem_replicate hpx

/-- C1 witness: on a concrete source tree, the diamond texture is copied
unchanged and the plain texture becomes the blank image. -/
theorem mtb_per_matched_file_witness :
    ∃ fs', make_transparent_blocks fsDemo ["src", "blocks"] ["t"] = .ok fs' ∧
      lookupFile fs' ["t", "stone.png"] = some (.png transparent_img) ∧
      lookupFile fs' ["t", "diamond_ore.png"] = some (.raw [7]) := by
  refine ⟨_, mtb_eq_ok ["t"] (by decide), ?_, ?_⟩
  · exact (mtb_per_matched_file fsDemo ["src", "blocks"] ["t"] "stone.png" _
      (by decide) (mtb_eq_ok ["t"] (by decide)) (by decide)).2.1 (by decide)
  · have h := (mtb_per_matched_file fsDemo ["src", "blocks"] ["t"] "diamond_ore.png" _
      (by decide) (mtb_eq_ok ["t"] (by decide)) (by decide)).1 (by decide)
    exact h.trans rfl

/-- C3: `make_transparent_blocks` is a single pass: it writes only direct
children of the target directory, leaves every file under the source
directory untouched, processes each matched name exactly once, and, on a
fresh target, the names written are exactly the `*.png` file names lying
directly in the source directory. -/
theorem mtb_single_pass (fs : FS) (src tgt : FPath) (fs' : FS)
    (hWF : fs.WF)
    (hpre : ¬ pathBelow src tgt)
    (hok : make_transparent_blocks fs src tgt = .ok fs') :
    (∀ p : FPath, (∀ n, n ∈ fs.glob src → p ≠ tgt ++ [n]) →
        lookupFile fs' p = lookupFile fs p) ∧
    (∀ p : FPath, pathBelow src p → p ≠ src → lookupFile fs' p = lookupFile fs p) ∧
    (∀ n : String, lookupFile fs (tgt ++ [n]) = none →
        ((lookupFile fs' (tgt ++ [n])).isSome = true ↔ n ∈ fs.glob src)) ∧
    (fs.glob src).Nodup ∧
    (∀ n : String, n ∈ fs.glob src ↔
        (globMatch n = true ∧ ∃ c, (src ++ [n], c) ∈ fs.files)) := by
  obtain ⟨hdir, rfl⟩ := mtb_ok_elim hok
  have hst : src ≠ tgt := ne_of_not_pathBelow hpre
  refine ⟨?_, ?_, ?_, glob_nodup hWF src, fun n => mem_glob⟩
  · intro p hp
    rw [lookupFile_mtbFold_frame src tgt _ _ _ hp]
    rfl
  · intro p hb hne
    rw [lookupFile_mtbFold_frame src tgt _ _ _
      (fun n _ => not_target_child_of_under_src hpre hb hne n)]
    rfl
  · intro n hnone
    constructor
    · intro hsome
      by_cases hg : n ∈ fs.glob src
      · exact hg
      · exfalso
        have hfr : ∀ k ∈ fs.glob src, tgt ++ [n] ≠ tgt ++ [k] := by
          intro k hk he
          have h2 := List.append_cancel_left he
          injection h2 with h3
          exact hg (h3 ▸ hk)
        rw [lookupFile_mtbFold_frame src tgt _ _ _ hfr,
          lookupFile_mkdirParents, hnone] at hsome
        simp at hsome
    · intro hg
      have hsrc : (lookupFile (fs.mkdirParents tgt) (src ++ [n])).isSome = true :=
        lookup_isSome_of_mem_glob hg
      rw [lookupFile_mtbFold_hit src tgt hst _ _ n hg hsrc]
      by_cases hd : strContains (strLower (stemOf n)) "diamond" = true
      · rw [if_pos hd]
        exact hsrc
      · rw [if_neg hd]
        simp

/-- C3 witness: the demonstration source's matched names are
without duplicates, and the non-PNG file is not matched. -/
theorem mtb_single_pass_witness :
    (fsDemo.glob ["src", "blocks"]).Nodup ∧
    ("notes.txt" ∈ fsDemo.glob ["src", "blocks"] ↔
      (globMatch "notes.txt" = true ∧
        ∃ c, (["src", "blocks"] ++ ["notes.txt"], c) ∈ fsDemo.files)) := by
  have h := mtb_single_pass fsDemo ["src", "blocks"] ["pack", "textures", "blocks"] _
    (by show (fsDemo.files.map (fun e => e.1)).Nodup; decide) (by decide)
    (mtb_eq_ok ["pack", "textures", "blocks"] (by decide))
  exact ⟨h.2.2.2.1, h.2.2.2.2 "notes.txt"⟩

/-- C7: the bytes written for a non-diamond texture are a fixed constant:
two runs over sources with the same matched names but arbitrary data
produce identical target files at every non-diamond name. -/
theorem mtb_blank_independent (fs1 fs2 : FS) (src tgt : FPath) (o1 o2 : FS)
    (n : String)
    (hst : src ≠ tgt)
    (hok1 : make_transparent_blocks fs1 src tgt = .ok o1)
    (hok2 : make_transparent_blocks fs2 src tgt = .ok o2)
    (hnames : fs1.glob src = fs2.glob src)
    (hn : n ∈ fs1.glob src)
    (hd : strContains (strLower (stemOf n)) "diamond" = false) :
    lookupFile o1 (tgt ++ [n]) = lookupFile o2 (tgt ++ [n]) := by
  obtain ⟨_, rfl⟩ := mtb_ok_elim hok1
  obtain ⟨_, rfl⟩ := mtb_ok_elim hok2
  have hn2 : n ∈ fs2.glob src := hnames ▸ hn
  have h1 := lookupFile_mtbFold_hit src tgt hst (fs1.glob src)
    (fs1.mkdirParents tgt) n hn (lookup_isSome_of_mem_glob hn)
  have h2 := lookupFile_mtbFold_hit src tgt hst (fs2.glob src)
    (fs2.mkdirParents tgt) n hn2 (lookup_isSome_of_mem_glob hn2)
  rw [h1, h2, if_neg (by simp [hd]), if_neg (by simp [hd])]

/-- C7 witness: two sources with identical names and different contents
yield the same target file for the non-diamond name "stone.png". -/
theorem mtb_blank_independent_witness :
    ∃ o1 o2, make_transparent_blocks fsDemo ["src", "blocks"] ["t"] = .ok o1 ∧
      make_transparent_blocks fsAlt ["src", "blocks"] ["t"] = .ok o2 ∧
      lookupFile o1 ["t", "stone.png"] = lookupFile o2 ["t", "stone.png"] := by
  refine ⟨_, _, mtb_eq_ok ["t"] (by decide), mtb_eq_ok ["t"] (by decide), ?_⟩
  exact mtb_blank_independent fsDemo fsAlt ["src", "blocks"] ["t"] _ _ "stone.png"
    (by decide) (mtb_eq_ok ["t"] (by decide)) (mtb_eq_ok ["t"] (by decide))
    (by decide) (by decide) (by decide)

/-- C8: `write_default_icon` preserves a user-supplied icon — when
`pack_root/pack_icon.png` already exists the call changes nothing — and
it is idempotent: running it twice equals running it once. -/
theorem write_default_icon_idempotent (fs : FS) (pr : FPath) :
    (fs.pathExists (pr ++ ["pack_icon.png"]) = true → write_default_icon fs pr = fs) ∧
    write_default_icon (write_default_icon fs pr) pr = write_default_icon fs pr := by
  refine ⟨write_default_icon_of_exists, ?_⟩
  by_cases h : fs.pathExists (pr ++ ["pack_icon.png"]) = true
  · rw [write_default_icon_of_exists h, write_default_icon_of_exists h]
  · have h' : fs.pathExists (pr ++ ["pack_icon.png"]) = false := by
      revert h
      cases fs.pathExists (pr ++ ["pack_icon.png"]) <;> simp
    rw [write_default_icon_of_not_exists h']
    exact write_default_icon_of_exists (pathExists_setFile_self fs _ _)

/-- C8 witness: with an icon already present, the call returns the file
system unchanged. -/
theorem write_default_icon_idempotent_witness :
    write_default_icon fsIcon8 ["p"] = fsIcon8 :=
  (write_default_icon_idempotent fsIcon8 ["p"]).1 (by decide)

/-- C9: `build_mcpack` normalizes and overwrites its output: the produced
archive path always carries the `.mcpack` suffix, the file at that path
afterwards is the fresh zip of `pack_root` whatever was there before, and
no temporary `.zip` file remains. -/
theorem build_mcpack_normalizes (fs : FS) (pack_root : FPath) (out : FPath)
    (hout : out ≠ []) :
    strEndsWith (pathName (withSuffix out ".mcpack")) ".mcpack" = true ∧
    lookupFile (build_mcpack fs pack_root out) (withSuffix out ".mcpack") =
      some (.zipArchive (fs.filesUnder pack_root)) ∧
    lookupFile (build_mcpack fs pack_root out)
      (withSuffix (withSuffix out ".mcpack") ".zip") = none := by
  refine ⟨withSuffix_mcpack_endsWith hout, ?_, ?_⟩
  · rw [lookupFile_build_mcpack fs pack_root hout, if_pos rfl]
  · rw [lookupFile_build_mcpack fs pack_root hout,
      if_neg (temp_zip_ne_mcpack (withSuffix_ne_nil hout ".mcpack") hout), if_pos rfl]

/-- C9 witness: the lemma evaluated on a concrete pack and an output path
carrying a `.zip` suffix. -/
theorem build_mcpack_normalizes_witness :
    strEndsWith (pathName (withSuffix ["dist", "pack.zip"] ".mcpack")) ".mcpack" = true ∧
    lookupFile (build_mcpack fsIcon8 ["p"] ["dist", "pack.zip"])
      (withSuffix ["dist", "pack.zip"] ".mcpack") =
      some (.zipArchive (fsIcon8.filesUnder ["p"])) ∧
    lookupFile (build_mcpack fsIcon8 ["p"] ["dist", "pack.zip"])
      (withSuffix (withSuffix ["dist", "pack.zip"] ".mcpack") ".zip") = none :=
  build_mcpack_normalizes fsIcon8 ["p"] ["dist", "pack.zip"] (by decide)

/-- C10: `write_manifest` unconditionally overwrites `manifest.json` with
a manifest carrying the two freshly drawn UUIDs, and the manifest
determines those UUIDs, so distinct draws give distinct manifests. -/
theorem write_manifest_overwrites (fs : FS) (pr : FPath) (nm ds u1 u2 : String) :
    lookupFile (write_manifest fs pr nm ds u1 u2) (pr ++ ["manifest.json"]) =
      some (.jsonFile (manifestJson nm ds u1 u2)) ∧
    (∀ u1' u2' : String,
      manifestJson nm ds u1 u2 = manifestJson nm ds u1' u2' → u1 = u1' ∧ u2 = u2') := by
  constructor
  · rw [lookupFile_write_manifest, if_pos rfl]
  · intro u1' u2' h
    unfold manifestJson at h
    injection h with h
    simp only [List.cons.injEq, Prod.mk.injEq, Json.obj.injEq, Json.str.injEq,
      Json.arr.injEq, true_and, and_true] at h
    exact ⟨h.1, h.2⟩

/-- C10 witness: the overwrite evaluated at a file system that already
holds a manifest, plus the injectivity at equal UUIDs. -/
theorem write_manifest_overwrites_witness :
    lookupFile (write_manifest fsIcon8 ["p"] "N" "D" "u1" "u2")
      (["p"] ++ ["manifest.json"]) =
      some (.jsonFile (manifestJson "N" "D" "u1" "u2")) ∧ ("u1" = "u1" ∧ "u2" = "u2") :=
  ⟨(write_manifest_overwrites fsIcon8 ["p"] "N" "D" "u1" "u2").1,
   (write_manifest_overwrites fsIcon8 ["p"] "N" "D" "u1" "u2").2 "u1" "u2" rfl⟩

/-- C2: the program's only failure handling is its two existence checks —
a run raises exactly when the source path or its `blocks` child is not a
directory — and in either error case the file system is exactly the input
one: nothing has been created or modified before the raise. -/
theorem main_error_handling (args : Args) (u1 u2 : String) (fs : FS) :
    ((∃ m fs' tr, XRayScript.main args u1 u2 fs = .err m fs' tr) ↔
      (fs.isDir args.source_textures = false ∨
       fs.isDir (args.source_textures ++ ["blocks"]) = false)) ∧
    (∀ m fs' tr, XRayScript.main args u1 u2 fs = .err m fs' tr →
      fs' = fs ∧ tr = []) := by
  constructor
  · constructor
    · rintro ⟨m, fs', tr, herr⟩
      by_cases h1 : fs.isDir args.source_textures = true
      · by_cases h2 : fs.isDir (args.source_textures ++ ["blocks"]) = true
        · rw [main_eq_ok_of_checks h1 h2] at herr
          by_cases h3 : args.no_mcpack = true
          · rw [if_pos h3] at herr
            exact absurd herr (by simp)
          · rw [if_neg h3] at herr
            exact absurd herr (by simp)
        · refine Or.inr ?_
          revert h2
          cases fs.isDir (args.source_textures ++ ["blocks"]) <;> simp
      · refine Or.inl ?_
        revert h1
        cases fs.isDir args.source_textures <;> simp
    · rintro (h1 | h2)
      · exact ⟨_, _, _, main_err_of_src h1⟩
      · by_cases h1 : fs.isDir args.source_textures = true
        · exact ⟨_, _, _, main_err_of_blocks h1 h2⟩
        · refine ⟨_, _, _, main_err_of_src ?_⟩
          revert h1
          cases fs.isDir args.source_textures <;> simp
  · intro m fs' tr herr
    by_cases h1 : fs.isDir args.source_textures = true
    · by_cases h2 : fs.isDir (args.source_textures ++ ["blocks"]) = true
      · rw [main_eq_ok_of_checks h1 h2] at herr
        by_cases h3 : args.no_mcpack = true
        · rw [if_pos h3] at herr
          exact absurd herr (by simp)
        · rw [if_neg h3] at herr
          exact absurd herr (by simp)
      · have h2' : fs.isDir (args.source_textures ++ ["blocks"]) = false := by
          revert h2
          cases fs.isDir (args.source_textures ++ ["blocks"]) <;> simp
        rw [main_err_of_blocks h1 h2'] at herr
        injection herr with ha hb hc
        exact ⟨hb.symm, hc.symm⟩
    · have h1' : fs.isDir args.source_textures = false := by
        revert h1
        cases fs.isDir args.source_textures <;> simp
      rw [main_err_of_src h1'] at herr
      injection herr with ha hb hc
      exact ⟨hb.symm, hc.symm⟩

/-- C2 witness: on the empty file system the run raises, and the state at
the raise is the input state. -/
theorem main_error_handling_witness :
    (∃ m fs' tr, XRayScript.main argsDemo "u" "v" fsEmpty = .err m fs' tr) ∧
    (XRayScript.main argsDemo "u" "v" fsEmpty =
        .err "Source folder does not exist" fsEmpty [] →
      fsEmpty = fsEmpty ∧ ([] : List Stage) = []) :=
  ⟨(main_error_handling argsDemo "u" "v" fsEmpty).1.mpr (Or.inl (by decide)),
   fun h => (main_error_handling argsDemo "u" "v" fsEmpty).2 _ _ _ h⟩

/-- C6: a successful run is the fixed linear pipeline: the trace of
executed stages is exactly textures, then manifest, then icon, then (when
archiving is enabled) the archive — each stage once, in this order. -/
theorem main_stage_trace (args : Args) (u1 u2 : String) (fs fs' : FS)
    (tr : List Stage)
    (hok : XRayScript.main args u1 u2 fs = .ok fs' tr) :
    tr = [Stage.textures, Stage.manifest, Stage.icon] ++
        (if args.no_mcpack then [] else [Stage.mcpack]) ∧
    tr.Nodup := by
  obtain ⟨h1, h2, hc⟩ := main_ok_elim hok
  rcases hc with ⟨hn, htr, _⟩ | ⟨hn, htr, _⟩
  · rw [htr, hn]
    exact ⟨rfl, by decide⟩
  · rw [htr, hn]
    exact ⟨rfl, by decide⟩

/-- C6 witness: the demonstration run executes the four stages in order. -/
theorem main_stage_trace_witness :
    [Stage.textures, Stage.manifest, Stage.icon, Stage.mcpack] =
      [Stage.textures, Stage.manifest, Stage.icon] ++
        (if argsDemo.no_mcpack then [] else [Stage.mcpack]) ∧
    ([Stage.textures, Stage.manifest, Stage.icon, Stage.mcpack] : List Stage).Nodup := by
  have hok : XRayScript.main argsDemo "u" "v" fsDemo =
      .ok (build_mcpack (metaStages argsDemo "u" "v" (texturesStage argsDemo fsDemo))
            argsDemo.output_pack (withSuffix argsDemo.output_pack ".mcpack"))
        [.textures, .manifest, .icon, .mcpack] := by
    rw [main_eq_ok_of_checks (by decide) (by decide)]
    rfl
  exact main_stage_trace argsDemo "u" "v" fsDemo _ _ hok

theorem ne_of_length_ne {p q : FPath} (h : p.length ≠ q.length) : p ≠ q :=
  fun he => h (he ▸ rfl)

theorem texturesStage_eq (args : Args) (fs : FS) :
    texturesStage args fs =
      (fs.glob (args.source_textures ++ ["blocks"])).foldl
        (mtbStep (args.source_textures ++ ["blocks"])
          (args.output_pack ++ ["textures", "blocks"]))
        (fs.mkdirParents (args.output_pack ++ ["textures", "blocks"])) := rfl

/-- C4 counterexample: a successful run over a pack that already carries a
custom icon ends with `pack_icon.png` unequal to the blank 256x256
transparent image, so not every run emits that icon. -/
theorem main_emits_icon_counterexample :
    (match XRayScript.main argsIcon "u" "v" fsIcon with
      | .ok fs _ => lookupFile fs ["pack", "pack_icon.png"]
      | .err _ _ _ => none) = some (.raw [9]) ∧
    some (FileContent.raw [9]) ≠
      some (.png (imageNew "RGBA" 256 256 ⟨0, 0, 0, 0⟩)) := by
  constructor
  · rfl
  · intro h
    injection h with h
    exact FileContent.noConfusion h

/-- C4 (amended): every successful run writes `manifest.json` at the pack
root — format_version 2, header with the given name and description,
version [1,0,0], min_engine_version [1,16,0], and exactly one module of
type "resources" with version [1,0,0] — and `pack_icon.png`: the blank
256x256 fully transparent RGBA image when no icon existed beforehand,
while a pre-existing icon file is left unchanged. -/
theorem main_metadata (args : Args) (u1 u2 : String) (fs fs' : FS) (tr : List Stage)
    (hok : XRayScript.main args u1 u2 fs = .ok fs' tr)
    (hpr : args.output_pack ≠ []) :
    lookupFile fs' (args.output_pack ++ ["manifest.json"]) =
      some (.jsonFile (manifestJson args.name args.description u1 u2)) ∧
    jsonLookup (manifestJson args.name args.description u1 u2) "format_version" =
      some (.num 2) ∧
    jsonLookup (manifestJson args.name args.description u1 u2) "header" =
      some (.obj [("description", .str args.description), ("name", .str args.name),
        ("uuid", .str u1), ("version", .arr [.num 1, .num 0, .num 0]),
        ("min_engine_version", .arr [.num 1, .num 16, .num 0])]) ∧
    jsonLookup (manifestJson args.name args.description u1 u2) "modules" =
      some (.arr [.obj [("type", .str "resources"), ("uuid", .str u2),
        ("version", .arr [.num 1, .num 0, .num 0])]]) ∧
    (fs.pathExists (args.output_pack ++ ["pack_icon.png"]) = false →
      lookupFile fs' (args.output_pack ++ ["pack_icon.png"]) =
        some (.png (imageNew "RGBA" 256 256 ⟨0, 0, 0, 0⟩))) ∧
    (∀ c, lookupFile fs (args.output_pack ++ ["pack_icon.png"]) = some c →
      lookupFile fs' (args.output_pack ++ ["pack_icon.png"]) = some c) := by
  obtain ⟨h1, h2, hc⟩ := main_ok_elim hok
  have hout : withSuffix args.output_pack ".mcpack" ≠ [] := withSuffix_ne_nil hpr _
  have hmlen : (args.output_pack ++ ["manifest.json"]).length ≠
      (withSuffix args.output_pack ".mcpack").length := by
    rw [length_append_single, length_withSuffix hpr]
    omega
  have hilen : (args.output_pack ++ ["pack_icon.png"]).length ≠
      (withSuffix args.output_pack ".mcpack").length := by
    rw [length_append_single, length_withSuffix hpr]
    omega
  rcases hc with ⟨hn, htr, hfs⟩ | ⟨hn, htr, hfs⟩
  · subst hfs
    refine ⟨lookupFile_metaStages_manifest args u1 u2 _, rfl, rfl, rfl, ?_, ?_⟩
    · exact fun h => lookupFile_metaStages_icon_absent args u1 u2 fs h
    · exact fun c hc2 => lookupFile_metaStages_icon_present args u1 u2 fs hc2
  · subst hfs
    refine ⟨?_, rfl, rfl, rfl, ?_, ?_⟩
    · rw [lookupFile_build_mcpack_long args.output_pack hout hmlen]
      exact lookupFile_metaStages_manifest args u1 u2 _
    · intro h
      rw [lookupFile_build_mcpack_long args.output_pack hout hilen]
      exact lookupFile_metaStages_icon_absent args u1 u2 fs h
    · intro c hc2
      rw [lookupFile_build_mcpack_long args.output_pack hout hilen]
      exact lookupFile_metaStages_icon_present args u1 u2 fs hc2

/-- C4 witness: the demonstration run, whose pack had no icon, produces
the stated manifest and the blank icon. -/
theorem main_metadata_witness :
    ∃ fs' tr, XRayScript.main argsDemo "u" "v" fsDemo = .ok fs' tr ∧
      lookupFile fs' (argsDemo.output_pack ++ ["manifest.json"]) =
        some (.jsonFile (manifestJson argsDemo.name argsDemo.description "u" "v")) ∧
      lookupFile fs' (argsDemo.output_pack ++ ["pack_icon.png"]) =
        some (.png (imageNew "RGBA" 256 256 ⟨0, 0, 0, 0⟩)) := by
  have hok : XRayScript.main argsDemo "u" "v" fsDemo =
      .ok (build_mcpack (metaStages argsDemo "u" "v" (texturesStage argsDemo fsDemo))
            argsDemo.output_pack (withSuffix argsDemo.output_pack ".mcpack"))
        [.textures, .manifest, .icon, .mcpack] := by
    rw [main_eq_ok_of_checks (by decide) (by decide)]
    rfl
  have h := main_metadata argsDemo "u" "v" fsDemo _ _ hok (by decide)
  exact ⟨_, _, hok, h.1, h.2.2.2.2.1 (by decide)⟩

/-- C5: with archiving enabled, a successful run leaves an archive at a
path carrying the `.mcpack` suffix whose contents are the zip of the pack
folder taken after all the other stages, so the archive contains the
manifest, the pack icon, and every generated texture. -/
theorem main_archive (args : Args) (u1 u2 : String) (fs fs' : FS) (tr : List Stage)
    (hok : XRayScript.main args u1 u2 fs = .ok fs' tr)
    (hpr : args.output_pack ≠ [])
    (hnm : args.no_mcpack = false)
    (hst : args.source_textures ++ ["blocks"] ≠
      args.output_pack ++ ["textures", "blocks"])
    (hnd : args.output_pack ++ ["pack_icon.png"] ∉ fs.dirs) :
    ∃ entries : List (FPath × FileContent),
      strEndsWith (pathName (withSuffix (withSuffix args.output_pack ".mcpack")
        ".mcpack")) ".mcpack" = true ∧
      lookupFile fs' (withSuffix (withSuffix args.output_pack ".mcpack") ".mcpack") =
        some (.zipArchive entries) ∧
      (["manifest.json"],
        FileContent.jsonFile (manifestJson args.name args.description u1 u2)) ∈ entries ∧
      (∃ icoC, (["pack_icon.png"], icoC) ∈ entries) ∧
      (∀ n ∈ fs.glob (args.source_textures ++ ["blocks"]),
        ∃ c, (["textures", "blocks", n], c) ∈ entries) := by
  obtain ⟨h1, h2, hc⟩ := main_ok_elim hok
  rcases hc with ⟨hn, _, _⟩ | ⟨hn, htr, hfs⟩
  · rw [hn] at hnm
    exact absurd hnm (by simp)
  · subst hfs
    have hout : withSuffix args.output_pack ".mcpack" ≠ [] := withSuffix_ne_nil hpr _
    refine ⟨(metaStages args u1 u2 (texturesStage args fs)).filesUnder args.output_pack,
      withSuffix_mcpack_endsWith hout, ?_, ?_, ?_, ?_⟩
    · rw [lookupFile_build_mcpack (metaStages args u1 u2 (texturesStage args fs))
        args.output_pack hout, if_pos rfl]
    · exact mem_filesUnder_of_lookup (by simp)
        (lookupFile_metaStages_manifest args u1 u2 _)
    · by_cases hex : fs.pathExists (args.output_pack ++ ["pack_icon.png"]) = true
      · have hsome : ∃ c, lookupFile fs (args.output_pack ++ ["pack_icon.png"]) = some c := by
          rcases pathExists_iff.mp hex with hs | hd2
          · exact Option.isSome_iff_exists.mp hs
          · exact absurd hd2 hnd
        obtain ⟨c, hcc⟩ := hsome
        exact ⟨c, mem_filesUnder_of_lookup (by simp)
          (lookupFile_metaStages_icon_present args u1 u2 fs hcc)⟩
      · have hex' : fs.pathExists (args.output_pack ++ ["pack_icon.png"]) = false := by
          revert hex
          cases fs.pathExists (args.output_pack ++ ["pack_icon.png"]) <;> simp
        exact ⟨_, mem_filesUnder_of_lookup (by simp)
          (lookupFile_metaStages_icon_absent args u1 u2 fs hex')⟩
    · intro n hng
      have hsrc : (lookupFile (fs.mkdirParents (args.output_pack ++ ["textures", "blocks"]))
          ((args.source_textures ++ ["blocks"]) ++ [n])).isSome = true :=
        lookup_isSome_of_mem_glob hng
      have hhit := lookupFile_mtbFold_hit (args.source_textures ++ ["blocks"])
        (args.output_pack ++ ["textures", "blocks"]) hst
        (fs.glob (args.source_textures ++ ["blocks"]))
        (fs.mkdirParents (args.output_pack ++ ["textures", "blocks"])) n hng hsrc
      have hsomeT : (lookupFile (texturesStage args fs)
          ((args.output_pack ++ ["textures", "blocks"]) ++ [n])).isSome = true := by
        rw [texturesStage_eq, hhit]
        by_cases hd : strContains (strLower (stemOf n)) "diamond" = true
        · rw [if_pos hd]
          exact hsrc
        · rw [if_neg hd]
          simp
      have hlen3 : ((args.output_pack ++ ["textures", "blocks"]) ++ [n]).length =
          args.output_pack.length + 3 := by
        rw [List.append_assoc, List.length_append]
        rfl
      have hframe : lookupFile (metaStages args u1 u2 (texturesStage args fs))
          ((args.output_pack ++ ["textures", "blocks"]) ++ [n]) =
          lookupFile (texturesStage args fs)
            ((args.output_pack ++ ["textures", "blocks"]) ++ [n]) := by
        apply lookupFile_metaStages_ne
        · apply ne_of_length_ne
          rw [hlen3, length_append_single]
          omega
        · apply ne_of_length_ne
          rw [hlen3, length_append_single]
          omega
      obtain ⟨c, hcT⟩ := Option.isSome_iff_exists.mp hsomeT
      refine ⟨c, mem_filesUnder_of_lookup (by simp) ?_⟩
      have hpath : args.output_pack ++ ["textures", "blocks", n] =
          (args.output_pack ++ ["textures", "blocks"]) ++ [n] := by
        rw [List.append_assoc]
        rfl
      rw [hpath, hframe]
      exact hcT

/-- C5 witness: the demonstration run leaves a `.mcpack` archive
containing the manifest. -/
theorem main_archive_witness :
    ∃ fs' tr entries, XRayScript.main argsDemo "u" "v" fsDemo = .ok fs' tr ∧
      lookupFile fs' (withSuffix (withSuffix argsDemo.output_pack ".mcpack") ".mcpack") =
        some (.zipArchive entries) ∧
      (["manifest.json"],
        FileContent.jsonFile (manifestJson argsDemo.name argsDemo.description "u" "v"))
        ∈ entries := by
  have hok : XRayScript.main argsDemo "u" "v" fsDemo =
      .ok (build_mcpack (metaStages argsDemo "u" "v" (texturesStage argsDemo fsDemo))
            argsDemo.output_pack (withSuffix argsDemo.output_pack ".mcpack"))
        [.textures, .manifest, .icon, .mcpack] := by
    rw [main_eq_ok_of_checks (by decide) (by decide)]
    rfl
  obtain ⟨entries, _, hz, hm, _, _⟩ := main_archive argsDemo "u" "v" fsDemo _ _ hok
    (by decide) rfl (by decide) (by decide)
  exact ⟨_, _, entries, hok, hz, hm⟩
